import Mathlib

/-!
# Pending-upload lifecycle tracker: a shallow embedding

This file embeds the core of the `upload-vimeo-server` repository in Lean 4
and proves properties of its pending-upload lifecycle tracker.

Embedded components (translated from the TypeScript source):

* the pending-record store `lib/uploadStore.ts` (`storePendingUpload`,
  `readPendingUpload`, `confirmPendingUpload`, `listExpiredPending`,
  `markDeleted`), backed by a Redis instance holding
  - plain keys `vimeo:pending:<token>` (set with a TTL),
  - plain keys `vimeo:confirmed:<videoId>` (set with a 30-day TTL),
  - one sorted set `vimeo:pending:index` mapping token to created-time score;
* the cron cleanup (sweep) handler `app/api/vimeo/cleanup/route.ts`
  (minutes-with-hours-fallback parameters, per-item confirmed check, remote
  delete, mark-deleted only on remote-delete success).

Modelling choices:

* The Redis state is a `Store` of three association lists; per-key get/set/del
  and the sorted-set zadd/zrem/zrange are modelled directly.  `redis.set` with
  `{ ex }` records the TTL seconds alongside the value; TTL expiry itself is an
  out-of-band deletion (exercised by the orphan-pruning property).
* Timestamp strings are abstracted by `TimeStr`: the only operations the
  source applies to them are `Date.parse` and `new Date(ms).toISOString()`,
  so a string is represented by its parse result (`iso ms`) or as an
  unparseable string (`invalid`).
* JavaScript numbers arriving from query parameters (after `Number(...)`)
  are modelled as `JNum := Option ℚ`, `none` standing for `NaN`.
* The remote host (`vimeoDeleteVideo` of `lib/vimeo.ts`, which returns
  `{ ok, status, body }` and treats 204 and 404 as `ok`) is an oracle
  `deleteOk : String → Bool` giving the `ok` field of each delete call.
-/

/-- A JavaScript string used as a timestamp.  `iso ms` is any string that
`Date.parse` reads as `ms` milliseconds since the epoch (in particular the
output of `new Date(ms).toISOString()`); `invalid s` is a string on which
`Date.parse` returns `NaN`. -/
inductive TimeStr where
  | iso (ms : Int)
  | invalid (s : String)
deriving DecidableEq, Repr

/-- `Date.parse`, as far as the source observes it: `some ms` on a parseable
timestamp string, `none` for `NaN`. -/
def dateParse : TimeStr → Option Int
  | .iso ms => some ms
  | .invalid _ => none

/-- The JSON value stored under `vimeo:pending:<token>` (type `PendingRecord`
of `lib/uploadStore.ts`). -/
structure PendingRecord where
  video_id : String
  created_at : TimeStr
deriving DecidableEq, Repr

/-- A stored pending value together with the TTL seconds passed to
`redis.set(key, rec, { ex })`. -/
structure PendingEntry where
  value : PendingRecord
  ttlSeconds : Nat
deriving DecidableEq, Repr

/-- The JSON value stored under `vimeo:confirmed:<videoId>`
(`{ confirmed_at }`), with the TTL seconds of its `redis.set`. -/
structure Marker where
  confirmed_at : TimeStr
  ttlSeconds : Nat
deriving DecidableEq, Repr

/-- Look up key `k` in an association list (a `redis.get`). -/
def aget {α : Type} (l : List (String × α)) (k : String) : Option α :=
  (l.find? (fun e => e.1 = k)).map (fun e => e.2)

/-- Remove key `k` from an association list (a `redis.del`). -/
def adel {α : Type} (l : List (String × α)) (k : String) : List (String × α) :=
  l.filter (fun e => e.1 ≠ k)

/-- Write key `k` to value `v` (a `redis.set`): at most one entry per key. -/
def aset {α : Type} (l : List (String × α)) (k : String) (v : α) :
    List (String × α) :=
  (k, v) :: adel l k

/-- Score of member `m` in a sorted set (a `redis.zscore` view; entries are
`(member, score)`). -/
def zscore (z : List (String × Int)) (m : String) : Option Int :=
  aget z m

/-- `redis.zrem`: remove member `m`. -/
def zrem (z : List (String × Int)) (m : String) : List (String × Int) :=
  adel z m

/-- Insert an entry keeping the list sorted by (score, then member, the Redis
tie-break). -/
def zinsert (score : Int) (m : String) : List (String × Int) → List (String × Int)
  | [] => [(m, score)]
  | e :: rest =>
    if score < e.2 ∨ (score = e.2 ∧ compare m e.1 = Ordering.lt) then
      (m, score) :: e :: rest
    else
      e :: zinsert score m rest

/-- `redis.zadd key { score, member }`: update the member's score. -/
def zadd (z : List (String × Int)) (score : Int) (m : String) :
    List (String × Int) :=
  zinsert score m (zrem z m)

/-- `redis.zrange(key, lo, hi, { byScore, offset: 0, count })`: members with
score in `[lo, hi]`, ascending, at most `count` of them. -/
def zrangeByScore (z : List (String × Int)) (lo hi : Int) (count : Nat) :
    List String :=
  ((z.filter (fun e => lo ≤ e.2 ∧ e.2 ≤ hi)).map (fun e => e.1)).take count

/-- The Redis state restricted to the three key families the upload store
uses: `vimeo:pending:<token>`, the sorted set `vimeo:pending:index`, and
`vimeo:confirmed:<videoId>`. -/
structure Store where
  pending : List (String × PendingEntry)
  index : List (String × Int)
  confirmed : List (String × Marker)
deriving DecidableEq, Repr

/-- `TTL_SECONDS` of `lib/uploadStore.ts`: the
`UPLOAD_PENDING_TTL_SECONDS` environment override defaulting to 6 hours. -/
def TTL_SECONDS : Nat := 6 * 60 * 60

/-- The 30-day TTL passed when writing a confirmed marker
(`{ ex: 30 * 24 * 60 * 60 }`). -/
def CONFIRMED_TTL_SECONDS : Nat := 30 * 24 * 60 * 60

/-- `storePendingUpload` of `lib/uploadStore.ts`: write the pending record
with the safety-net TTL, then index the token by its created time — but only
when `Date.parse(created_at)` is not `NaN`. -/
def storePendingUpload (s : Store) (pending_token video_id : String)
    (created_at : TimeStr) : Store :=
  let r : PendingRecord := { video_id := video_id, created_at := created_at }
  let s1 : Store :=
    { s with pending := aset s.pending pending_token ⟨r, TTL_SECONDS⟩ }
  match dateParse created_at with
  | some createdMs => { s1 with index := zadd s1.index createdMs pending_token }
  | none => s1

/-- `readPendingUpload` of `lib/uploadStore.ts`. -/
def readPendingUpload (s : Store) (pending_token : String) :
    Option PendingRecord :=
  (aget s.pending pending_token).map (fun e => e.value)

/-- The result union of `confirmPendingUpload`:
`{ ok: true } | { ok: false, reason: "pending_token_not_found" }
| { ok: false, reason: "video_id_mismatch" }`. -/
inductive ConfirmResult where
  | ok
  | notFound
  | mismatch
deriving DecidableEq, Repr

/-- `confirmPendingUpload` of `lib/uploadStore.ts`.  When the pending record
is absent it writes the confirmed marker and reports `pending_token_not_found`;
when the stored `video_id` differs it returns `video_id_mismatch` having
touched nothing; otherwise it writes the marker, deletes the pending record
and removes the token from the index. -/
def confirmPendingUpload (s : Store) (pending_token video_id : String)
    (confirmed_at : TimeStr) : ConfirmResult × Store :=
  let marked := aset s.confirmed video_id ⟨confirmed_at, CONFIRMED_TTL_SECONDS⟩
  match aget s.pending pending_token with
  | none =>
    (ConfirmResult.notFound, { s with confirmed := marked })
  | some e =>
    if e.value.video_id ≠ video_id then
      (ConfirmResult.mismatch, s)
    else
      (ConfirmResult.ok,
        { pending := adel s.pending pending_token,
          index := zrem s.index pending_token,
          confirmed := marked })

/-- The `{ ok: true }` value `markDeleted` returns. -/
structure MarkResult where
  ok : Bool
deriving DecidableEq, Repr

/-- `markDeleted` of `lib/uploadStore.ts`: delete the pending key, remove the
token from the index, return `{ ok: true }`.  The `deleted_at` argument is
accepted and ignored, as in the source (`_deleted_at`). -/
def markDeleted (s : Store) (pending_token : String) (deleted_at : TimeStr) :
    MarkResult × Store :=
  let _ := deleted_at
  (⟨true⟩,
    { s with pending := adel s.pending pending_token,
             index := zrem s.index pending_token })

/-- One element of the list `listExpiredPending` returns. -/
structure ScanItem where
  pending_token : String
  video_id : String
  created_at : TimeStr
deriving DecidableEq, Repr

/-- The per-token loop of `listExpiredPending`.  For each token of the range
query, in order: if the pending record is gone or its `video_id` is falsy
(`!rec?.video_id`), prune the orphan index entry; if a confirmed marker is
live for its `video_id`, delete the pending record and the index entry and
exclude it; otherwise include it in the output. -/
def scanLoop (s : Store) : List String → List ScanItem × Store
  | [] => ([], s)
  | token :: rest =>
    match aget s.pending token with
    | none => scanLoop { s with index := zrem s.index token } rest
    | some e =>
      if e.value.video_id = "" then
        scanLoop { s with index := zrem s.index token } rest
      else if (aget s.confirmed e.value.video_id).isSome then
        scanLoop
          { s with pending := adel s.pending token,
                   index := zrem s.index token } rest
      else
        let step := scanLoop s rest
        (⟨token, e.value.video_id, e.value.created_at⟩ :: step.1, step.2)

/-- `listExpiredPending` of `lib/uploadStore.ts`.  The cutoff string is
parsed; `NaN` falls back to `Date.now()` (the `now` argument).  The index is
range-queried for scores in `[0, max]` (the source passes `0` as the range
start) limited to `limit` entries, and the loop above filters and repairs. -/
def listExpiredPending (s : Store) (cutoffISO : TimeStr) (limit : Nat)
    (now : Int) : List ScanItem × Store :=
  let maxScore := (dateParse cutoffISO).getD now
  scanLoop s (zrangeByScore s.index 0 maxScore limit)

/-- A JavaScript number as produced by `Number(...)` on a query parameter:
`none` is `NaN`, `some n` an ordinary value.  The values are modelled as
integers: every arithmetic step the handler performs on them
(`hours * 60`, `now - minutes * 60 * 1000`) is integral, and the properties
below concern only `NaN`-ness and sign, so fractional query values are not
distinguished. -/
def JNum : Type := Option Int
deriving instance DecidableEq, Repr for JNum

/-- The `count` handed to the range query once the numeric `limit` parameter
has been validated positive. -/
def jsCount (n : Int) : Nat := n.toNat

/-- Modelled from the spec: `isConfirmed`, imported by the cleanup handler
from the upload store, is not among the source files (only this caller is).
Per the spec's ConfirmedMarker description it reports whether a live
ConfirmedMarker exists for the given `mediaId`. -/
def isConfirmed (s : Store) (video_id : String) : Bool :=
  (aget s.confirmed video_id).isSome

/-- Outcome recorded for one item of the cleanup batch. -/
inductive ItemOutcome where
  /-- `error: "missing_pending_token_or_video_id"`. -/
  | missingFields
  /-- `skipped: "already_confirmed"`. -/
  | skippedConfirmed
  /-- `deleted_on_vimeo: true` and `markDeleted` called. -/
  | deletedAndMarked
  /-- `deleted_on_vimeo: false`,
  `mark_result: "skipped_mark_deleted_due_to_vimeo_failure"`. -/
  | vimeoFailed
deriving DecidableEq, Repr

/-- One element of the handler's `results` array. -/
structure ItemResult where
  pending_token : String
  video_id : String
  outcome : ItemOutcome
deriving DecidableEq, Repr

/-- The accumulator of the cleanup handler's per-record loop: the store, the
`results` array, the `deletedCount` counter, and the list of video ids passed
to `vimeoDeleteVideo` (in call order). -/
structure SweepState where
  store : Store
  results : List ItemResult
  deletedCount : Nat
  deleteCalls : List String
deriving DecidableEq, Repr

/-- One iteration of the cleanup handler's `for (const rec of pending)` loop
(`app/api/vimeo/cleanup/route.ts`): skip items with falsy token or video id;
skip items whose video id has a live confirmed marker; otherwise call the
remote delete, and only when it reports `ok` increment `deletedCount` and
`markDeleted` the token in the store.  `deleteOk` is the remote host oracle:
the `ok` field `vimeoDeleteVideo` returns for each video id (it reports 404
"already gone" as `ok`).  `nowDel` stands for the `new Date().toISOString()`
passed to `markDeleted` (which ignores it). -/
def processItem (deleteOk : String → Bool) (nowDel : Int) (st : SweepState)
    (it : ScanItem) : SweepState :=
  if it.pending_token = "" ∨ it.video_id = "" then
    { st with results :=
        st.results ++ [⟨it.pending_token, it.video_id, .missingFields⟩] }
  else if isConfirmed st.store it.video_id then
    { st with results :=
        st.results ++ [⟨it.pending_token, it.video_id, .skippedConfirmed⟩] }
  else if deleteOk it.video_id then
    { store := (markDeleted st.store it.pending_token (.iso nowDel)).2,
      results :=
        st.results ++ [⟨it.pending_token, it.video_id, .deletedAndMarked⟩],
      deletedCount := st.deletedCount + 1,
      deleteCalls := st.deleteCalls ++ [it.video_id] }
  else
    { st with
      results := st.results ++ [⟨it.pending_token, it.video_id, .vimeoFailed⟩],
      deleteCalls := st.deleteCalls ++ [it.video_id] }

/-- The whole per-record loop of the cleanup handler over the list returned
by `listExpiredPending`. -/
def sweepItems (s : Store) (deleteOk : String → Bool) (nowDel : Int)
    (items : List ScanItem) : SweepState :=
  items.foldl (processItem deleteOk nowDel) ⟨s, [], 0, []⟩

/-- `DEFAULT_HOURS` of the cleanup handler. -/
def DEFAULT_HOURS : Int := 24

/-- `DEFAULT_LIMIT` of the cleanup handler. -/
def DEFAULT_LIMIT : Int := 25

/-- The staleness threshold in minutes as the handler computes it: the
`minutes` query parameter takes precedence; otherwise `hours * 60`;
otherwise `DEFAULT_HOURS * 60`.  The outer `Option` is parameter presence;
`NaN` propagates through the multiplication. -/
def effectiveMinutes (minutesQ hoursQ : Option JNum) : JNum :=
  match minutesQ with
  | some m => m
  | none =>
    match hoursQ with
    | some h => Option.map (fun q => q * 60) h
    | none => some (DEFAULT_HOURS * 60)

/-- The response of one cleanup invocation, reduced to what the handler
decides: a 400 validation rejection for the minutes/hours parameter, a 400
rejection for the limit parameter, or the 200 summary body. -/
inductive SweepResponse where
  | invalidMinutes
  | invalidLimit
  | ok (cutoffISO : TimeStr) (requestedMinutes : Int) (found deleted : Nat)
      (results : List ItemResult)
deriving DecidableEq, Repr

/-- What one cleanup invocation returns and does: the response, the final
store, and the video ids whose remote deletion was attempted. -/
structure SweepReturn where
  response : SweepResponse
  store : Store
  deleteCalls : List String
deriving DecidableEq, Repr

/-- The cleanup (sweep) handler of `app/api/vimeo/cleanup/route.ts`, state
logic only (auth-header checking and the debug `vimeoWhoAmI` call touch no
store state).  `now` is `Date.now()`; `minutesQ`, `hoursQ`, `limitQ` are the
query parameters after `Number(...)` (absent-or-empty `limit` already folded
to its default by `get("limit") || DEFAULT_LIMIT`).  Validation: reject when
the effective minutes value is `NaN` or ≤ 0, then when the limit is `NaN` or
≤ 0, performing nothing; otherwise scan the store at the cutoff
`now - minutes * 60 * 1000` and run the per-record loop. -/
def runSweep (s : Store) (now : Int) (minutesQ hoursQ : Option JNum)
    (limitQ : Option JNum) (deleteOk : String → Bool) : SweepReturn :=
  let limit : JNum := limitQ.getD (some DEFAULT_LIMIT)
  match effectiveMinutes minutesQ hoursQ with
  | none => ⟨.invalidMinutes, s, []⟩
  | some mv =>
    if mv ≤ 0 then ⟨.invalidMinutes, s, []⟩
    else
      match limit with
      | none => ⟨.invalidLimit, s, []⟩
      | some lv =>
        if lv ≤ 0 then ⟨.invalidLimit, s, []⟩
        else
          let cutoffMs := now - mv * 60 * 1000
          let scanned := listExpiredPending s (.iso cutoffMs) (jsCount lv) now
          let fin := sweepItems scanned.2 deleteOk now scanned.1
          ⟨.ok (.iso cutoffMs) mv scanned.1.length fin.deletedCount fin.results,
            fin.store, fin.deleteCalls⟩

/-- The handler's numeric-parameter validation predicate,
`Number.isNaN(x) || x <= 0`. -/
def jnumInvalid : JNum → Bool
  | none => true
  | some v => decide (v ≤ 0)

/-- The operation optionally applied between creating a record and scanning,
in the round-trip property: leave it alone, confirm it (with its own token
and media id), or retire it. -/
inductive MidOp where
  | keep
  | confirmIt (confirmed_at : TimeStr)
  | retireIt (deleted_at : TimeStr)
deriving DecidableEq, Repr

/-- Apply the intermediate operation to the store. -/
def applyMid (s : Store) (tok vid : String) : MidOp → Store
  | .keep => s
  | .confirmIt ca => (confirmPendingUpload s tok vid ca).2
  | .retireIt da => (markDeleted s tok da).2

/-- What one `listExpiredPending` pass guarantees for a token of its work
list, in terms of the observations the loop makes at that token: an orphan
token is pruned from the index and excluded; a token whose record has a live
confirmed marker is deleted from both pending and index and excluded; a live
unconfirmed record is returned and left in place. -/
def ScanSpec (s : Store) (fin : List ScanItem × Store) (tok : String) : Prop :=
  (aget s.pending tok = none →
    (∀ it ∈ fin.1, it.pending_token ≠ tok) ∧ zscore fin.2.index tok = none) ∧
  (∀ e : PendingEntry, aget s.pending tok = some e → e.value.video_id ≠ "" →
    ((aget s.confirmed e.value.video_id).isSome →
      (∀ it ∈ fin.1, it.pending_token ≠ tok) ∧
      aget fin.2.pending tok = none ∧ zscore fin.2.index tok = none) ∧
    (aget s.confirmed e.value.video_id = none →
      (⟨tok, e.value.video_id, e.value.created_at⟩ : ScanItem) ∈ fin.1 ∧
      aget fin.2.pending tok = some e ∧
      zscore fin.2.index tok = zscore s.index tok))

/-! ## Association-list and sorted-set lemmas -/

theorem aget_nil {α : Type} (k : String) : aget ([] : List (String × α)) k = none := rfl

theorem aget_cons {α : Type} (e : String × α) (l : List (String × α)) (k : String) :
    aget (e :: l) k = if e.1 = k then some e.2 else aget l k := by
  by_cases h : e.1 = k <;> simp [aget, List.find?, h]

theorem aget_eq_none_iff {α : Type} (l : List (String × α)) (k : String) :
    aget l k = none ↔ ∀ e ∈ l, e.1 ≠ k := by
  simp [aget, List.find?_eq_none]

theorem adel_of_aget_none {α : Type} (l : List (String × α)) (k : String)
    (h : aget l k = none) : adel l k = l := by
  refine List.filter_eq_self.mpr ?_
  intro e he
  simpa using (aget_eq_none_iff l k).mp h e he

theorem aget_adel_self {α : Type} (l : List (String × α)) (k : String) :
    aget (adel l k) k = none := by
  rw [aget_eq_none_iff]
  intro e he
  have := List.of_mem_filter he
  simpa using this

theorem adel_cons {α : Type} (e : String × α) (l : List (String × α))
    (k : String) :
    adel (e :: l) k = if e.1 = k then adel l k else e :: adel l k := by
  by_cases h : e.1 = k <;> simp [adel, List.filter_cons, h]

theorem aget_adel_ne {α : Type} (l : List (String × α)) (k k' : String)
    (h : k' ≠ k) : aget (adel l k') k = aget l k := by
  induction l with
  | nil => rfl
  | cons e rest ih =>
    rw [adel_cons]
    by_cases he : e.1 = k'
    · rw [if_pos he, ih, aget_cons, if_neg (by rw [he]; exact h)]
    · rw [if_neg he, aget_cons, aget_cons]
      by_cases hek : e.1 = k <;> simp [hek, ih]

theorem adel_idem {α : Type} (l : List (String × α)) (k : String) :
    adel (adel l k) k = adel l k :=
  adel_of_aget_none _ _ (aget_adel_self l k)

theorem aget_aset_self {α : Type} (l : List (String × α)) (k : String) (v : α) :
    aget (aset l k v) k = some v := by
  simp [aset, aget_cons]

theorem aget_aset_ne {α : Type} (l : List (String × α)) (k k' : String) (v : α)
    (h : k' ≠ k) : aget (aset l k' v) k = aget l k := by
  simp [aset, aget_cons, h]
  exact aget_adel_ne l k k' h

theorem mem_adel_iff {α : Type} (l : List (String × α)) (k : String)
    (e : String × α) : e ∈ adel l k ↔ e ∈ l ∧ e.1 ≠ k := by
  simp [adel, List.mem_filter]

theorem keys_nodup_adel {α : Type} (l : List (String × α)) (k : String)
    (h : (l.map Prod.fst).Nodup) : ((adel l k).map Prod.fst).Nodup :=
  h.sublist ((List.filter_sublist l).map Prod.fst)

theorem aget_eq_some_mem {α : Type} (l : List (String × α)) (k : String)
    (v : α) (h : aget l k = some v) : (k, v) ∈ l := by
  unfold aget at h
  cases hf : l.find? (fun e => e.1 = k) with
  | none => rw [hf] at h; simp at h
  | some e =>
    rw [hf] at h
    have hmem := List.mem_of_find?_eq_some hf
    have hkey := List.find?_some hf
    simp only [decide_eq_true_eq] at hkey
    obtain ⟨a, b⟩ := e
    have hb : b = v := by simpa using h
    have ha : a = k := hkey
    subst hb; subst ha
    exact hmem

theorem mem_aget_eq_some {α : Type} (l : List (String × α)) (k : String)
    (v : α) (hnd : (l.map Prod.fst).Nodup) (h : (k, v) ∈ l) :
    aget l k = some v := by
  induction l with
  | nil => simp at h
  | cons e rest ih =>
    simp only [List.map_cons, List.nodup_cons] at hnd
    rcases List.mem_cons.mp h with he | hrest
    · subst he
      simp [aget_cons]
    · have hk : e.1 ≠ k := by
        intro hek
        exact hnd.1 (hek ▸ (List.mem_map_of_mem Prod.fst hrest))
      rw [aget_cons, if_neg hk]
      exact ih hnd.2 hrest

theorem zinsert_perm (score : Int) (m : String) (z : List (String × Int)) :
    List.Perm (zinsert score m z) ((m, score) :: z) := by
  induction z with
  | nil => exact List.Perm.refl _
  | cons e rest ih =>
    rw [zinsert]
    by_cases h : score < e.2 ∨ (score = e.2 ∧ compare m e.1 = Ordering.lt)
    · rw [if_pos h]
    · rw [if_neg h]
      exact (ih.cons e).trans (List.Perm.swap _ _ _)

theorem mem_zinsert_iff (score : Int) (m : String) (z : List (String × Int))
    (e : String × Int) :
    e ∈ zinsert score m z ↔ e = (m, score) ∨ e ∈ z := by
  rw [(zinsert_perm score m z).mem_iff, List.mem_cons]

theorem mem_zadd_iff (z : List (String × Int)) (score : Int) (m : String)
    (e : String × Int) :
    e ∈ zadd z score m ↔ e = (m, score) ∨ (e ∈ z ∧ e.1 ≠ m) := by
  rw [zadd, zrem, mem_zinsert_iff, mem_adel_iff]

theorem keys_nodup_zadd (z : List (String × Int)) (score : Int) (m : String)
    (h : (z.map Prod.fst).Nodup) : ((zadd z score m).map Prod.fst).Nodup := by
  have hperm := (zinsert_perm score m (adel z m)).map Prod.fst
  rw [zadd, zrem, hperm.nodup_iff]
  simp only [List.map_cons, List.nodup_cons]
  constructor
  · intro hmem
    obtain ⟨e, hmem, hkey⟩ := List.mem_map.mp hmem
    exact ((mem_adel_iff z m e).mp hmem).2 hkey
  · exact keys_nodup_adel z m h

theorem aget_zinsert_of_none (score : Int) (m : String)
    (z : List (String × Int)) (h : aget z m = none) :
    aget (zinsert score m z) m = some score := by
  induction z with
  | nil => simp [zinsert, aget_cons]
  | cons e rest ih =>
    rw [aget_cons] at h
    by_cases hek : e.1 = m
    · rw [if_pos hek] at h; exact absurd h (by simp)
    · rw [if_neg hek] at h
      rw [zinsert]
      by_cases hc : score < e.2 ∨ (score = e.2 ∧ compare m e.1 = Ordering.lt)
      · rw [if_pos hc, aget_cons, if_pos rfl]
      · rw [if_neg hc, aget_cons, if_neg hek]
        exact ih h

theorem zscore_zadd_self (z : List (String × Int)) (score : Int) (m : String) :
    zscore (zadd z score m) m = some score := by
  rw [zscore, zadd, zrem]
  exact aget_zinsert_of_none score m (adel z m) (aget_adel_self z m)

theorem aget_zinsert_ne (score : Int) (m k : String)
    (z : List (String × Int)) (h : m ≠ k) :
    aget (zinsert score m z) k = aget z k := by
  induction z with
  | nil => simp [zinsert, aget_cons, h]
  | cons e rest ih =>
    rw [zinsert]
    by_cases hc : score < e.2 ∨ (score = e.2 ∧ compare m e.1 = Ordering.lt)
    · rw [if_pos hc, aget_cons, if_neg h]
    · rw [if_neg hc, aget_cons, aget_cons]
      by_cases hek : e.1 = k <;> simp [hek, ih]

theorem zscore_zadd_ne (z : List (String × Int)) (score : Int) (m k : String)
    (h : m ≠ k) : zscore (zadd z score m) k = zscore z k := by
  rw [zscore, zscore, zadd, zrem, aget_zinsert_ne score m k _ h]
  exact aget_adel_ne z k m h

theorem mem_zrangeByScore (z : List (String × Int)) (lo hi : Int)
    (count : Nat) (tok : String) (htok : tok ∈ zrangeByScore z lo hi count) :
    ∃ sc, (tok, sc) ∈ z ∧ lo ≤ sc ∧ sc ≤ hi := by
  have hsub := List.take_subset count
    ((z.filter (fun e => lo ≤ e.2 ∧ e.2 ≤ hi)).map (fun e => e.1))
  have hmem := hsub htok
  obtain ⟨e, hmem, hkey⟩ := List.mem_map.mp hmem
  have := List.mem_filter.mp hmem
  obtain ⟨a, b⟩ := e
  refine ⟨b, ?_, ?_, ?_⟩ <;> simp_all

theorem mem_zrangeByScore_of_le (z : List (String × Int)) (lo hi : Int)
    (count : Nat) (tok : String) (sc : Int)
    (hlen : (z.filter (fun e => lo ≤ e.2 ∧ e.2 ≤ hi)).length ≤ count)
    (hmem : (tok, sc) ∈ z) (hlo : lo ≤ sc) (hhi : sc ≤ hi) :
    tok ∈ zrangeByScore z lo hi count := by
  rw [zrangeByScore, List.take_of_length_le (by simpa using hlen)]
  exact List.mem_map.mpr ⟨(tok, sc), List.mem_filter.mpr ⟨hmem, by simp [hlo, hhi]⟩, rfl⟩

theorem nodup_zrangeByScore (z : List (String × Int)) (lo hi : Int)
    (count : Nat) (hnd : (z.map Prod.fst).Nodup) :
    (zrangeByScore z lo hi count).Nodup := by
  refine List.Nodup.sublist (List.take_sublist _ _) ?_
  have hsub : List.Sublist
      ((z.filter (fun e => lo ≤ e.2 ∧ e.2 ≤ hi)).map Prod.fst)
      (z.map Prod.fst) := (List.filter_sublist z).map Prod.fst
  exact hnd.sublist hsub

theorem zscore_of_mem (z : List (String × Int)) (tok : String) (sc : Int)
    (hnd : (z.map Prod.fst).Nodup) (hmem : (tok, sc) ∈ z) :
    zscore z tok = some sc :=
  mem_aget_eq_some z tok sc hnd hmem

theorem not_mem_zrangeByScore_of_zscore_none (z : List (String × Int))
    (lo hi : Int) (count : Nat) (tok : String) (h : zscore z tok = none) :
    tok ∉ zrangeByScore z lo hi count := by
  intro hmem
  obtain ⟨sc, hmem, -, -⟩ := mem_zrangeByScore z lo hi count tok hmem
  exact absurd (aget_eq_none_iff z tok |>.mp h (tok, sc) hmem) (by simp)

/-! ## Scan-loop lemmas -/

theorem scanLoop_cons (s : Store) (t : String) (rest : List String) :
    scanLoop s (t :: rest) =
      match aget s.pending t with
      | none => scanLoop { s with index := zrem s.index t } rest
      | some e =>
        if e.value.video_id = "" then
          scanLoop { s with index := zrem s.index t } rest
        else if (aget s.confirmed e.value.video_id).isSome then
          scanLoop { s with pending := adel s.pending t,
                            index := zrem s.index t } rest
        else
          ((⟨t, e.value.video_id, e.value.created_at⟩ : ScanItem) ::
            (scanLoop s rest).1, (scanLoop s rest).2) := rfl

theorem scanLoop_preserves_confirmed (ts : List String) : ∀ s : Store,
    (scanLoop s ts).2.confirmed = s.confirmed := by
  induction ts with
  | nil => intro s; rfl
  | cons t rest ih =>
    intro s
    rw [scanLoop_cons]
    cases hhead : aget s.pending t with
    | none => exact ih _
    | some e =>
      by_cases hv : e.value.video_id = ""
      · simp only [hv, if_pos rfl]; exact ih _
      · by_cases hc : (aget s.confirmed e.value.video_id).isSome
        · simp only [if_neg hv, if_pos hc]; exact ih _
        · simp only [if_neg hv, if_neg hc]; exact ih s

theorem scanLoop_result_tokens (ts : List String) : ∀ (s : Store)
    (it : ScanItem), it ∈ (scanLoop s ts).1 → it.pending_token ∈ ts := by
  induction ts with
  | nil => intro s it h; simp [scanLoop] at h
  | cons t rest ih =>
    intro s it h
    rw [scanLoop_cons] at h
    cases hhead : aget s.pending t with
    | none =>
      rw [hhead] at h
      exact List.mem_cons_of_mem t (ih _ it h)
    | some e =>
      rw [hhead] at h
      dsimp only at h
      by_cases hv : e.value.video_id = ""
      · rw [if_pos hv] at h
        exact List.mem_cons_of_mem t (ih _ it h)
      · rw [if_neg hv] at h
        by_cases hc : (aget s.confirmed e.value.video_id).isSome
        · rw [if_pos hc] at h
          exact List.mem_cons_of_mem t (ih _ it h)
        · rw [if_neg hc] at h
          rcases List.mem_cons.mp h with hit | hit
          · subst hit; exact List.mem_cons_self t rest
          · exact List.mem_cons_of_mem t (ih s it hit)

theorem scanLoop_untouched (ts : List String) : ∀ (s : Store) (tok : String),
    tok ∉ ts →
    aget (scanLoop s ts).2.pending tok = aget s.pending tok ∧
    zscore (scanLoop s ts).2.index tok = zscore s.index tok := by
  induction ts with
  | nil => intro s tok _; exact ⟨rfl, rfl⟩
  | cons t rest ih =>
    intro s tok hni
    have hne : t ≠ tok := fun hh => hni (hh ▸ List.mem_cons_self t rest)
    have hnr : tok ∉ rest := fun hh => hni (List.mem_cons_of_mem t hh)
    rw [scanLoop_cons]
    cases hhead : aget s.pending t with
    | none =>
      have h := ih { s with index := zrem s.index t } tok hnr
      rw [h.1, h.2]
      exact ⟨rfl, aget_adel_ne s.index tok t hne⟩
    | some e =>
      dsimp only
      by_cases hv : e.value.video_id = ""
      · rw [if_pos hv]
        have h := ih { s with index := zrem s.index t } tok hnr
        rw [h.1, h.2]
        exact ⟨rfl, aget_adel_ne s.index tok t hne⟩
      · rw [if_neg hv]
        by_cases hc : (aget s.confirmed e.value.video_id).isSome
        · rw [if_pos hc]
          have h := ih { s with pending := adel s.pending t,
                                index := zrem s.index t } tok hnr
          rw [h.1, h.2]
          exact ⟨aget_adel_ne s.pending tok t hne, aget_adel_ne s.index tok t hne⟩
        · rw [if_neg hc]
          exact ih s tok hnr

theorem scanSpec_transfer (s s' : Store) (fin : List ScanItem × Store)
    (tok : String) (hp : aget s'.pending tok = aget s.pending tok)
    (hi : zscore s'.index tok = zscore s.index tok)
    (hc : s'.confirmed = s.confirmed)
    (h : ScanSpec s' fin tok) : ScanSpec s fin tok := by
  unfold ScanSpec at h ⊢
  rw [hp, hi, hc] at h
  exact h

theorem scanSpec_cons (s : Store) (out : List ScanItem) (st : Store)
    (x : ScanItem) (tok : String) (hx : x.pending_token ≠ tok)
    (h : ScanSpec s (out, st) tok) : ScanSpec s (x :: out, st) tok := by
  obtain ⟨h1, h2⟩ := h
  have hcons : ∀ (p : ∀ it ∈ out, it.pending_token ≠ tok),
      ∀ it ∈ x :: out, it.pending_token ≠ tok := by
    intro p it hit
    rcases List.mem_cons.mp hit with hh | hh
    · subst hh; exact hx
    · exact p it hh
  constructor
  · intro hn
    obtain ⟨ha, hb⟩ := h1 hn
    exact ⟨hcons ha, hb⟩
  · intro e he hv
    obtain ⟨ha, hb⟩ := h2 e he hv
    constructor
    · intro hcf
      obtain ⟨x1, x2, x3⟩ := ha hcf
      exact ⟨hcons x1, x2, x3⟩
    · intro hcf
      obtain ⟨x1, x2, x3⟩ := hb hcf
      exact ⟨List.mem_cons_of_mem x x1, x2, x3⟩

theorem scanLoop_spec (ts : List String) : ∀ (s : Store) (tok : String),
    ts.Nodup → tok ∈ ts → ScanSpec s (scanLoop s ts) tok := by
  induction ts with
  | nil => intro s tok _ hmem; simp at hmem
  | cons t rest ih =>
    intro s tok hnd hmem
    obtain ⟨hnotin, hndr⟩ := List.nodup_cons.mp hnd
    rw [scanLoop_cons]
    rcases List.mem_cons.mp hmem with htok | htok
    · subst htok
      cases hhead : aget s.pending tok with
      | none =>
        dsimp only
        constructor
        · intro _
          refine ⟨?_, ?_⟩
          · intro it hit hh
            exact hnotin (hh ▸ scanLoop_result_tokens rest _ it hit)
          · rw [(scanLoop_untouched rest _ tok hnotin).2]
            exact aget_adel_self s.index tok
        · intro e he _
          rw [hhead] at he
          simp at he
      | some e0 =>
        dsimp only
        by_cases hv : e0.value.video_id = ""
        · rw [if_pos hv]
          constructor
          · intro hn
            rw [hhead] at hn
            simp at hn
          · intro e he hvne
            rw [hhead] at he
            injection he with he
            subst he
            exact absurd hv hvne
        · rw [if_neg hv]
          by_cases hc : (aget s.confirmed e0.value.video_id).isSome
          · rw [if_pos hc]
            constructor
            · intro hn
              rw [hhead] at hn
              simp at hn
            · intro e he hvne
              rw [hhead] at he
              injection he with he
              subst he
              constructor
              · intro _
                refine ⟨?_, ?_, ?_⟩
                · intro it hit hh
                  exact hnotin (hh ▸ scanLoop_result_tokens rest _ it hit)
                · rw [(scanLoop_untouched rest _ tok hnotin).1]
                  exact aget_adel_self s.pending tok
                · rw [(scanLoop_untouched rest _ tok hnotin).2]
                  exact aget_adel_self s.index tok
              · intro hcv
                rw [hcv] at hc
                simp at hc
          · rw [if_neg hc]
            constructor
            · intro hn
              rw [hhead] at hn
              simp at hn
            · intro e he hvne
              rw [hhead] at he
              injection he with he
              subst he
              constructor
              · intro hcf
                exact absurd hcf hc
              · intro _
                refine ⟨List.mem_cons_self _ _, ?_, ?_⟩
                · rw [(scanLoop_untouched rest s tok hnotin).1]
                  exact hhead
                · exact (scanLoop_untouched rest s tok hnotin).2
    · have hne : t ≠ tok := fun hh => hnotin (hh ▸ htok)
      cases hhead : aget s.pending t with
      | none =>
        dsimp only
        exact scanSpec_transfer s { s with index := zrem s.index t } _ tok rfl
          (aget_adel_ne s.index tok t hne) rfl (ih _ tok hndr htok)
      | some e0 =>
        dsimp only
        by_cases hv : e0.value.video_id = ""
        · rw [if_pos hv]
          exact scanSpec_transfer s { s with index := zrem s.index t } _ tok rfl
            (aget_adel_ne s.index tok t hne) rfl (ih _ tok hndr htok)
        · rw [if_neg hv]
          by_cases hc : (aget s.confirmed e0.value.video_id).isSome
          · rw [if_pos hc]
            exact scanSpec_transfer s
              { s with pending := adel s.pending t, index := zrem s.index t }
              _ tok (aget_adel_ne s.pending tok t hne)
              (aget_adel_ne s.index tok t hne) rfl (ih _ tok hndr htok)
          · rw [if_neg hc]
            exact scanSpec_cons s _ _ _ tok hne (ih s tok hndr htok)

/-! ## Sweep-loop lemmas -/

theorem isConfirmed_false_iff (s : Store) (v : String) :
    isConfirmed s v = false ↔ aget s.confirmed v = none := by
  unfold isConfirmed
  cases aget s.confirmed v <;> simp

theorem processItem_confirmed (d : String → Bool) (n : Int) (st : SweepState)
    (it : ScanItem) :
    (processItem d n st it).store.confirmed = st.store.confirmed := by
  unfold processItem
  by_cases h1 : it.pending_token = "" ∨ it.video_id = ""
  · simp only [if_pos h1]
  · simp only [if_neg h1]
    by_cases h2 : isConfirmed st.store it.video_id
    · simp only [if_pos h2]
    · simp only [if_neg h2]
      by_cases h3 : d it.video_id
      · simp only [if_pos h3]; rfl
      · simp only [if_neg h3]

theorem sweep_foldl_confirmed (d : String → Bool) (n : Int)
    (items : List ScanItem) : ∀ st : SweepState,
    ((items.foldl (processItem d n) st).store.confirmed = st.store.confirmed) := by
  induction items with
  | nil => intro st; rfl
  | cons it rest ih =>
    intro st
    rw [List.foldl_cons, ih, processItem_confirmed]

theorem processItem_untouched (d : String → Bool) (n : Int) (st : SweepState)
    (it : ScanItem) (tok : String) (hne : it.pending_token ≠ tok) :
    aget (processItem d n st it).store.pending tok =
      aget st.store.pending tok ∧
    zscore (processItem d n st it).store.index tok =
      zscore st.store.index tok := by
  unfold processItem
  by_cases h1 : it.pending_token = "" ∨ it.video_id = ""
  · simp only [if_pos h1]; exact ⟨trivial, trivial⟩
  · simp only [if_neg h1]
    by_cases h2 : isConfirmed st.store it.video_id
    · simp only [if_pos h2]; exact ⟨trivial, trivial⟩
    · simp only [if_neg h2]
      by_cases h3 : d it.video_id
      · simp only [if_pos h3]
        exact ⟨aget_adel_ne st.store.pending tok it.pending_token hne,
          aget_adel_ne st.store.index tok it.pending_token hne⟩
      · simp only [if_neg h3]; exact ⟨trivial, trivial⟩

theorem sweep_foldl_untouched (d : String → Bool) (n : Int)
    (items : List ScanItem) : ∀ (st : SweepState) (tok : String),
    (∀ it ∈ items, it.pending_token ≠ tok) →
    aget ((items.foldl (processItem d n) st).store.pending) tok =
      aget st.store.pending tok ∧
    zscore ((items.foldl (processItem d n) st).store.index) tok =
      zscore st.store.index tok := by
  induction items with
  | nil => intro st tok _; exact ⟨rfl, rfl⟩
  | cons it rest ih =>
    intro st tok hall
    rw [List.foldl_cons]
    have h1 := processItem_untouched d n st it tok
      (hall it (List.mem_cons_self it rest))
    have h2 := ih (processItem d n st it) tok
      (fun x hx => hall x (List.mem_cons_of_mem it hx))
    rw [h2.1, h2.2, h1.1, h1.2]
    exact ⟨rfl, rfl⟩

theorem sweep_deleteCalls_unconfirmed (d : String → Bool) (n : Int)
    (items : List ScanItem) :
    ∀ (st : SweepState) (C : List (String × Marker)),
    st.store.confirmed = C →
    (∀ v ∈ st.deleteCalls, aget C v = none) →
    ∀ v ∈ (items.foldl (processItem d n) st).deleteCalls, aget C v = none := by
  induction items with
  | nil => intro st C _ hinv v hv; exact hinv v hv
  | cons it rest ih =>
    intro st C hC hinv
    rw [List.foldl_cons]
    refine ih _ C (by rw [processItem_confirmed, hC]) ?_
    have hnew : ¬isConfirmed st.store it.video_id →
        aget C it.video_id = none := by
      intro h2
      rw [← hC]
      exact (isConfirmed_false_iff st.store it.video_id).mp
        (Bool.not_eq_true _ ▸ Bool.of_not_eq_true h2)
    unfold processItem
    by_cases h1 : it.pending_token = "" ∨ it.video_id = ""
    · simp only [if_pos h1]; exact hinv
    · simp only [if_neg h1]
      by_cases h2 : isConfirmed st.store it.video_id
      · simp only [if_pos h2]; exact hinv
      · simp only [if_neg h2]
        by_cases h3 : d it.video_id
        · simp only [if_pos h3]
          intro v hv
          rcases List.mem_append.mp hv with hl | hr
          · exact hinv v hl
          · rw [List.mem_singleton.mp hr]
            exact hnew h2
        · simp only [if_neg h3]
          intro v hv
          rcases List.mem_append.mp hv with hl | hr
          · exact hinv v hl
          · rw [List.mem_singleton.mp hr]
            exact hnew h2

/-- What the cleanup loop does to one record of its batch: if the remote
delete reports failure the record's pending entry and index entry are exactly
as before the loop; if the record was already confirmed it is skipped and
also left unchanged; if the remote delete succeeds (and the record is not
confirmed) the token is retired, i.e. pending entry and index entry are gone. -/
theorem sweepItems_retire_spec (s : Store) (d : String → Bool) (n : Int)
    (items : List ScanItem) (r : ScanItem)
    (hnd : (items.map ScanItem.pending_token).Nodup)
    (hmem : r ∈ items) (htok : r.pending_token ≠ "") (hvid : r.video_id ≠ "") :
    (isConfirmed s r.video_id = false → d r.video_id = true →
      aget (sweepItems s d n items).store.pending r.pending_token = none ∧
      zscore (sweepItems s d n items).store.index r.pending_token = none) ∧
    (d r.video_id = false →
      aget (sweepItems s d n items).store.pending r.pending_token =
        aget s.pending r.pending_token ∧
      zscore (sweepItems s d n items).store.index r.pending_token =
        zscore s.index r.pending_token) ∧
    (isConfirmed s r.video_id = true →
      aget (sweepItems s d n items).store.pending r.pending_token =
        aget s.pending r.pending_token ∧
      zscore (sweepItems s d n items).store.index r.pending_token =
        zscore s.index r.pending_token) := by
  obtain ⟨pre, post, hsplit⟩ := List.append_of_mem hmem
  subst hsplit
  have hmaps : ((pre ++ r :: post).map ScanItem.pending_token) =
      pre.map ScanItem.pending_token ++
        r.pending_token :: post.map ScanItem.pending_token := by
    simp
  rw [hmaps] at hnd
  obtain ⟨hnd1, hnd2, hdisj⟩ := List.nodup_append.mp hnd
  have hrtok_post : r.pending_token ∉ post.map ScanItem.pending_token :=
    (List.nodup_cons.mp hnd2).1
  have hpre : ∀ it ∈ pre, it.pending_token ≠ r.pending_token := by
    intro it hit hh
    exact hdisj (hh ▸ List.mem_map_of_mem ScanItem.pending_token hit)
      (List.mem_cons_self _ _)
  have hpost : ∀ it ∈ post, it.pending_token ≠ r.pending_token := by
    intro it hit hh
    exact hrtok_post (hh ▸ List.mem_map_of_mem ScanItem.pending_token hit)
  have hfold : sweepItems s d n (pre ++ r :: post) =
      post.foldl (processItem d n)
        (processItem d n (pre.foldl (processItem d n) ⟨s, [], 0, []⟩) r) := by
    rw [sweepItems, List.foldl_append, List.foldl_cons]
  set st1 := pre.foldl (processItem d n) (⟨s, [], 0, []⟩ : SweepState) with hst1
  have h1 := sweep_foldl_untouched d n pre ⟨s, [], 0, []⟩ r.pending_token hpre
  have hc1 : st1.store.confirmed = s.confirmed :=
    sweep_foldl_confirmed d n pre ⟨s, [], 0, []⟩
  have hconf_eq : isConfirmed st1.store r.video_id = isConfirmed s r.video_id := by
    unfold isConfirmed
    rw [hc1]
  have hna : ¬(r.pending_token = "" ∨ r.video_id = "") := by
    rintro (h | h)
    · exact htok h
    · exact hvid h
  refine ⟨?_, ?_, ?_⟩
  · intro hC hd
    have hnc : ¬(isConfirmed st1.store r.video_id = true) := by
      rw [hconf_eq, hC]; simp
    have hstep : processItem d n st1 r =
        { store := (markDeleted st1.store r.pending_token (.iso n)).2,
          results := st1.results ++
            [⟨r.pending_token, r.video_id, .deletedAndMarked⟩],
          deletedCount := st1.deletedCount + 1,
          deleteCalls := st1.deleteCalls ++ [r.video_id] } := by
      unfold processItem
      rw [if_neg hna, if_neg hnc, if_pos hd]
    have h2 := sweep_foldl_untouched d n post (processItem d n st1 r)
      r.pending_token hpost
    rw [hfold, h2.1, h2.2, hstep]
    exact ⟨aget_adel_self _ _, aget_adel_self _ _⟩
  · intro hd
    have h2 := sweep_foldl_untouched d n post (processItem d n st1 r)
      r.pending_token hpost
    by_cases hC : isConfirmed st1.store r.video_id
    · have hstep : processItem d n st1 r =
          { st1 with results := st1.results ++
              [⟨r.pending_token, r.video_id, .skippedConfirmed⟩] } := by
        unfold processItem
        rw [if_neg hna, if_pos hC]
      rw [hfold, h2.1, h2.2, hstep]
      exact ⟨h1.1, h1.2⟩
    · have hstep : processItem d n st1 r =
          { st1 with
            results := st1.results ++
              [⟨r.pending_token, r.video_id, .vimeoFailed⟩],
            deleteCalls := st1.deleteCalls ++ [r.video_id] } := by
        unfold processItem
        rw [if_neg hna, if_neg hC, if_neg (by rw [hd]; simp)]
      rw [hfold, h2.1, h2.2, hstep]
      exact ⟨h1.1, h1.2⟩
  · intro hC
    have h2 := sweep_foldl_untouched d n post (processItem d n st1 r)
      r.pending_token hpost
    have hstep : processItem d n st1 r =
        { st1 with results := st1.results ++
            [⟨r.pending_token, r.video_id, .skippedConfirmed⟩] } := by
      unfold processItem
      rw [if_neg hna, if_pos (hconf_eq.trans hC)]
    rw [hfold, h2.1, h2.2, hstep]
    exact ⟨h1.1, h1.2⟩

theorem countP_aset_self {α : Type} (l : List (String × α)) (k : String)
    (v : α) : (aset l k v).countP (fun e => e.1 = k) = 1 := by
  rw [aset, List.countP_cons]
  have hz : (adel l k).countP (fun e => e.1 = k) = 0 := by
    rw [List.countP_eq_zero]
    intro e he
    simpa using ((mem_adel_iff l k e).mp he).2
  simp [hz]

/-! ## The claims -/

/-- C6: for a stored pending record with media id B, confirming with a
different media id A returns the `video_id_mismatch` failure and leaves the
whole store — in particular the pending record and its expiry-index entry —
unchanged. -/
theorem confirm_mismatch_rejected (s : Store) (tok mediaA : String)
    (ca : TimeStr) (e : PendingEntry)
    (he : aget s.pending tok = some e) (hne : e.value.video_id ≠ mediaA) :
    confirmPendingUpload s tok mediaA ca = (ConfirmResult.mismatch, s) := by
  unfold confirmPendingUpload
  rw [he]
  dsimp only
  rw [if_pos hne]

theorem confirm_mismatch_rejected_witness :
    aget (Store.mk [("t", ⟨⟨"B", .iso 0⟩, TTL_SECONDS⟩)] [("t", 0)] []).pending
        "t" = some ⟨⟨"B", .iso 0⟩, TTL_SECONDS⟩ ∧
    ("B" : String) ≠ "A" ∧
    confirmPendingUpload
        (Store.mk [("t", ⟨⟨"B", .iso 0⟩, TTL_SECONDS⟩)] [("t", 0)] [])
        "t" "A" (.iso 1) =
      (ConfirmResult.mismatch,
        Store.mk [("t", ⟨⟨"B", .iso 0⟩, TTL_SECONDS⟩)] [("t", 0)] []) :=
  ⟨by decide, by decide,
    confirm_mismatch_rejected _ "t" "A" (.iso 1) ⟨⟨"B", .iso 0⟩, TTL_SECONDS⟩
      (by decide) (by decide)⟩

/-- C9: `markDeleted` (retire) is idempotent: it reports `ok`, applying it
twice leaves the same store as applying it once, and applying it to a token
with no pending record and no index entry leaves the store exactly as it
was. -/
theorem markDeleted_idempotent (s : Store) (tok : String) (da da2 : TimeStr) :
    (markDeleted (markDeleted s tok da).2 tok da2).2 = (markDeleted s tok da).2 ∧
    (markDeleted s tok da).1.ok = true ∧
    (aget s.pending tok = none → zscore s.index tok = none →
      (markDeleted s tok da).2 = s) := by
  refine ⟨?_, rfl, ?_⟩
  · simp only [markDeleted, zrem]
    rw [adel_idem, adel_idem]
  · intro h1 h2
    simp only [markDeleted, zrem]
    rw [adel_of_aget_none _ _ h1, adel_of_aget_none _ _ h2]

theorem markDeleted_idempotent_witness :
    aget (Store.mk [] [] []).pending "t" = none ∧
    zscore (Store.mk [] [] []).index "t" = none ∧
    ((markDeleted (markDeleted (Store.mk [] [] []) "t" (.iso 3)).2 "t"
        (.iso 4)).2 = (markDeleted (Store.mk [] [] []) "t" (.iso 3)).2 ∧
      (markDeleted (Store.mk [] [] []) "t" (.iso 3)).1.ok = true ∧
      (aget (Store.mk [] [] []).pending "t" = none →
        zscore (Store.mk [] [] []).index "t" = none →
        (markDeleted (Store.mk [] [] []) "t" (.iso 3)).2 = Store.mk [] [] [])) :=
  ⟨by decide, by decide, markDeleted_idempotent (Store.mk [] [] []) "t"
    (.iso 3) (.iso 4)⟩

/-- C10: a create whose `created_at` does not parse still writes the pending
record under its token with the safety-net TTL, adds no expiry-index entry,
and (the token not being in the index) no subsequent scan ever returns that
token. -/
theorem store_unparseable_created_at (s : Store) (tok vid : String)
    (ca : TimeStr) (hparse : dateParse ca = none)
    (hidx : zscore s.index tok = none) :
    aget (storePendingUpload s tok vid ca).pending tok =
      some ⟨⟨vid, ca⟩, TTL_SECONDS⟩ ∧
    (storePendingUpload s tok vid ca).index = s.index ∧
    ∀ (cutoff : TimeStr) (limit : Nat) (now : Int),
      ∀ it ∈ (listExpiredPending (storePendingUpload s tok vid ca)
          cutoff limit now).1, it.pending_token ≠ tok := by
  unfold storePendingUpload
  rw [hparse]
  refine ⟨aget_aset_self s.pending tok _, rfl, ?_⟩
  intro cutoff limit now it hit hh
  have hmem := scanLoop_result_tokens _ _ it hit
  exact not_mem_zrangeByScore_of_zscore_none s.index 0
    ((dateParse cutoff).getD now) limit tok hidx (hh ▸ hmem)

theorem store_unparseable_created_at_witness :
    dateParse (.invalid "oops") = none ∧
    zscore (Store.mk [] [] []).index "t" = none ∧
    (aget (storePendingUpload (Store.mk [] [] []) "t" "m"
          (.invalid "oops")).pending "t" =
        some ⟨⟨"m", .invalid "oops"⟩, TTL_SECONDS⟩ ∧
      (storePendingUpload (Store.mk [] [] []) "t" "m"
          (.invalid "oops")).index = (Store.mk [] [] []).index ∧
      ∀ (cutoff : TimeStr) (limit : Nat) (now : Int),
        ∀ it ∈ (listExpiredPending
            (storePendingUpload (Store.mk [] [] []) "t" "m" (.invalid "oops"))
            cutoff limit now).1, it.pending_token ≠ "t") :=
  ⟨by decide, by decide, store_unparseable_created_at (Store.mk [] [] [])
    "t" "m" (.invalid "oops") (by decide) (by decide)⟩

/-- C1 counterexample: with a pending record stored for token `t` whose media
id is `B`, `confirm("t", "A")` takes the `video_id_mismatch` branch and does
NOT write a ConfirmedMarker for `A` — the store still has no marker for `A`
afterwards, refuting "a ConfirmedMarker is written regardless of outcome, in
particular on the MEDIA_MISMATCH branch". -/
theorem confirm_mismatch_no_marker_cex :
    (confirmPendingUpload
        (Store.mk [("t", ⟨⟨"B", .iso 0⟩, TTL_SECONDS⟩)] [("t", 0)] [])
        "t" "A" (.iso 1)).1 = ConfirmResult.mismatch ∧
    aget (confirmPendingUpload
        (Store.mk [("t", ⟨⟨"B", .iso 0⟩, TTL_SECONDS⟩)] [("t", 0)] [])
        "t" "A" (.iso 1)).2.confirmed "A" = none := by
  decide

/-- C1 amended: `confirm` writes the ConfirmedMarker for `mediaId` on the
`ok:true` and `NOT_FOUND` outcomes; on the `MEDIA_MISMATCH` outcome it writes
no marker and leaves the store unchanged. -/
theorem confirm_marker_branches (s : Store) (tok vid : String) (ca : TimeStr) :
    (aget s.pending tok = none →
      (confirmPendingUpload s tok vid ca).1 = ConfirmResult.notFound ∧
      aget (confirmPendingUpload s tok vid ca).2.confirmed vid =
        some ⟨ca, CONFIRMED_TTL_SECONDS⟩) ∧
    (∀ e : PendingEntry, aget s.pending tok = some e →
      e.value.video_id = vid →
      (confirmPendingUpload s tok vid ca).1 = ConfirmResult.ok ∧
      aget (confirmPendingUpload s tok vid ca).2.confirmed vid =
        some ⟨ca, CONFIRMED_TTL_SECONDS⟩) ∧
    (∀ e : PendingEntry, aget s.pending tok = some e →
      e.value.video_id ≠ vid →
      confirmPendingUpload s tok vid ca = (ConfirmResult.mismatch, s)) := by
  refine ⟨?_, ?_, ?_⟩
  · intro hn
    unfold confirmPendingUpload
    rw [hn]
    exact ⟨rfl, aget_aset_self s.confirmed vid _⟩
  · intro e he hv
    unfold confirmPendingUpload
    rw [he]
    dsimp only
    rw [if_neg (by simpa using hv)]
    exact ⟨rfl, aget_aset_self s.confirmed vid _⟩
  · intro e he hv
    unfold confirmPendingUpload
    rw [he]
    dsimp only
    rw [if_pos hv]

theorem confirm_marker_branches_witness :
    aget (Store.mk [] [] []).pending "t" = none ∧
    ((aget (Store.mk ([] : List (String × PendingEntry)) [] []).pending "t" =
        none →
      (confirmPendingUpload (Store.mk [] [] []) "t" "A" (.iso 1)).1 =
        ConfirmResult.notFound ∧
      aget (confirmPendingUpload (Store.mk [] [] []) "t" "A"
          (.iso 1)).2.confirmed "A" = some ⟨.iso 1, CONFIRMED_TTL_SECONDS⟩) ∧
    (∀ e : PendingEntry,
      aget (Store.mk ([] : List (String × PendingEntry)) [] []).pending "t" =
        some e →
      e.value.video_id = "A" →
      (confirmPendingUpload (Store.mk [] [] []) "t" "A" (.iso 1)).1 =
        ConfirmResult.ok ∧
      aget (confirmPendingUpload (Store.mk [] [] []) "t" "A"
          (.iso 1)).2.confirmed "A" = some ⟨.iso 1, CONFIRMED_TTL_SECONDS⟩) ∧
    (∀ e : PendingEntry,
      aget (Store.mk ([] : List (String × PendingEntry)) [] []).pending "t" =
        some e →
      e.value.video_id ≠ "A" →
      confirmPendingUpload (Store.mk [] [] []) "t" "A" (.iso 1) =
        (ConfirmResult.mismatch, Store.mk [] [] []))) :=
  ⟨by decide, confirm_marker_branches (Store.mk [] [] []) "t" "A" (.iso 1)⟩

/-- C4 counterexample: confirming the same (token, mediaId, confirmedAt)
twice yields `ok:true` the first time but `pending_token_not_found` — not
`ok:true` — the second time, because the first call deleted the pending
record. -/
theorem confirm_twice_not_ok_cex :
    (confirmPendingUpload
        (Store.mk [("t", ⟨⟨"m", .iso 0⟩, TTL_SECONDS⟩)] [("t", 0)] [])
        "t" "m" (.iso 1)).1 = ConfirmResult.ok ∧
    (confirmPendingUpload
        (confirmPendingUpload
          (Store.mk [("t", ⟨⟨"m", .iso 0⟩, TTL_SECONDS⟩)] [("t", 0)] [])
          "t" "m" (.iso 1)).2
        "t" "m" (.iso 1)).1 ≠ ConfirmResult.ok := by
  decide

/-- C4 amended: confirming twice with the same arguments yields `ok:true`
then `{ok:false, NOT_FOUND}`; the second call rewrites the identical marker,
so afterwards exactly one ConfirmedMarker exists for that media id, holding
the given `confirmed_at` — no two conflicting markers are left. -/
theorem confirm_twice_spec (s : Store) (tok vid : String) (ca : TimeStr)
    (e : PendingEntry) (he : aget s.pending tok = some e)
    (hv : e.value.video_id = vid) :
    (confirmPendingUpload s tok vid ca).1 = ConfirmResult.ok ∧
    (confirmPendingUpload (confirmPendingUpload s tok vid ca).2
        tok vid ca).1 = ConfirmResult.notFound ∧
    aget (confirmPendingUpload (confirmPendingUpload s tok vid ca).2
        tok vid ca).2.confirmed vid = some ⟨ca, CONFIRMED_TTL_SECONDS⟩ ∧
    ((confirmPendingUpload (confirmPendingUpload s tok vid ca).2
        tok vid ca).2.confirmed.countP (fun en => en.1 = vid)) = 1 := by
  have hfirst : confirmPendingUpload s tok vid ca =
      (ConfirmResult.ok,
        { pending := adel s.pending tok,
          index := zrem s.index tok,
          confirmed := aset s.confirmed vid ⟨ca, CONFIRMED_TTL_SECONDS⟩ }) := by
    unfold confirmPendingUpload
    rw [he]
    dsimp only
    rw [if_neg (by simpa using hv)]
  rw [hfirst]
  dsimp only
  unfold confirmPendingUpload
  dsimp only
  rw [aget_adel_self s.pending tok]
  dsimp only
  exact ⟨rfl, rfl, aget_aset_self _ vid _, countP_aset_self _ vid _⟩

theorem confirm_twice_spec_witness :
    aget (Store.mk [("t", ⟨⟨"m", .iso 0⟩, TTL_SECONDS⟩)] [("t", 0)] []).pending
        "t" = some ⟨⟨"m", .iso 0⟩, TTL_SECONDS⟩ ∧
    ((confirmPendingUpload
        (Store.mk [("t", ⟨⟨"m", .iso 0⟩, TTL_SECONDS⟩)] [("t", 0)] [])
        "t" "m" (.iso 1)).1 = ConfirmResult.ok ∧
    (confirmPendingUpload
        (confirmPendingUpload
          (Store.mk [("t", ⟨⟨"m", .iso 0⟩, TTL_SECONDS⟩)] [("t", 0)] [])
          "t" "m" (.iso 1)).2 "t" "m" (.iso 1)).1 = ConfirmResult.notFound ∧
    aget (confirmPendingUpload
        (confirmPendingUpload
          (Store.mk [("t", ⟨⟨"m", .iso 0⟩, TTL_SECONDS⟩)] [("t", 0)] [])
          "t" "m" (.iso 1)).2 "t" "m" (.iso 1)).2.confirmed "m" =
      some ⟨.iso 1, CONFIRMED_TTL_SECONDS⟩ ∧
    ((confirmPendingUpload
        (confirmPendingUpload
          (Store.mk [("t", ⟨⟨"m", .iso 0⟩, TTL_SECONDS⟩)] [("t", 0)] [])
          "t" "m" (.iso 1)).2 "t" "m" (.iso 1)).2.confirmed.countP
        (fun en => en.1 = "m")) = 1) :=
  ⟨by decide, confirm_twice_spec
    (Store.mk [("t", ⟨⟨"m", .iso 0⟩, TTL_SECONDS⟩)] [("t", 0)] [])
    "t" "m" (.iso 1) ⟨⟨"m", .iso 0⟩, TTL_SECONDS⟩ (by decide) (by decide)⟩

/-- C7: a token still present in the expiry index whose pending record no
longer exists (removed out-of-band, e.g. by TTL) is, on the next scan that
reaches it, removed from the index and excluded from the results. -/
theorem scan_prunes_orphans (s : Store) (cutoff : TimeStr) (limit : Nat)
    (now : Int) (tok : String)
    (hnd : (s.index.map Prod.fst).Nodup)
    (hreach : tok ∈ zrangeByScore s.index 0 ((dateParse cutoff).getD now) limit)
    (hgone : aget s.pending tok = none) :
    (∀ it ∈ (listExpiredPending s cutoff limit now).1,
      it.pending_token ≠ tok) ∧
    zscore (listExpiredPending s cutoff limit now).2.index tok = none := by
  have hnodup := nodup_zrangeByScore s.index 0 ((dateParse cutoff).getD now)
    limit hnd
  have hspec := scanLoop_spec _ s tok hnodup hreach
  exact hspec.1 hgone

theorem scan_prunes_orphans_witness :
    ((Store.mk [] [("t", 5)] []).index.map Prod.fst).Nodup ∧
    "t" ∈ zrangeByScore (Store.mk ([] : List (String × PendingEntry))
        [("t", 5)] []).index 0 ((dateParse (.iso 10)).getD 0) 25 ∧
    aget (Store.mk [] [("t", 5)] []).pending "t" = none ∧
    ((∀ it ∈ (listExpiredPending (Store.mk [] [("t", 5)] [])
        (.iso 10) 25 0).1, it.pending_token ≠ "t") ∧
      zscore (listExpiredPending (Store.mk [] [("t", 5)] [])
          (.iso 10) 25 0).2.index "t" = none) :=
  ⟨by decide, by decide, by decide,
    scan_prunes_orphans (Store.mk [] [("t", 5)] []) (.iso 10) 25 0 "t"
      (by decide) (by decide) (by decide)⟩

/-- C2: in the cleanup handler's per-record loop, a processed record (one
with usable token and video id, not already confirmed) is retired from the
store — pending key deleted and token removed from the expiry index — when
the remote deletion reports success, and on remote-deletion failure its
pending entry and index entry are exactly as before the loop, so a later
sweep sees it again. -/
theorem sweep_retires_only_on_delete_success (s : Store) (d : String → Bool)
    (n : Int) (items : List ScanItem) (r : ScanItem)
    (hnd : (items.map ScanItem.pending_token).Nodup)
    (hmem : r ∈ items) (htok : r.pending_token ≠ "") (hvid : r.video_id ≠ "")
    (hnc : isConfirmed s r.video_id = false) :
    (d r.video_id = true →
      aget (sweepItems s d n items).store.pending r.pending_token = none ∧
      zscore (sweepItems s d n items).store.index r.pending_token = none) ∧
    (d r.video_id = false →
      aget (sweepItems s d n items).store.pending r.pending_token =
        aget s.pending r.pending_token ∧
      zscore (sweepItems s d n items).store.index r.pending_token =
        zscore s.index r.pending_token) := by
  have h := sweepItems_retire_spec s d n items r hnd hmem htok hvid
  exact ⟨fun hd => h.1 hnc hd, h.2.1⟩

theorem sweep_retires_only_on_delete_success_witness :
    (([⟨"t1", "m1", .iso 0⟩, ⟨"t2", "m2", .iso 1⟩] :
        List ScanItem).map ScanItem.pending_token).Nodup ∧
    isConfirmed
      (Store.mk [("t1", ⟨⟨"m1", .iso 0⟩, TTL_SECONDS⟩),
          ("t2", ⟨⟨"m2", .iso 1⟩, TTL_SECONDS⟩)]
        [("t1", 0), ("t2", 1)] []) "m2" = false ∧
    (aget (sweepItems
        (Store.mk [("t1", ⟨⟨"m1", .iso 0⟩, TTL_SECONDS⟩),
            ("t2", ⟨⟨"m2", .iso 1⟩, TTL_SECONDS⟩)]
          [("t1", 0), ("t2", 1)] [])
        (fun v => decide (v = "m1")) 9
        [⟨"t1", "m1", .iso 0⟩, ⟨"t2", "m2", .iso 1⟩]).store.pending "t2" =
      aget (Store.mk [("t1", ⟨⟨"m1", .iso 0⟩, TTL_SECONDS⟩),
          ("t2", ⟨⟨"m2", .iso 1⟩, TTL_SECONDS⟩)]
        [("t1", 0), ("t2", 1)] []).pending "t2" ∧
    zscore (sweepItems
        (Store.mk [("t1", ⟨⟨"m1", .iso 0⟩, TTL_SECONDS⟩),
            ("t2", ⟨⟨"m2", .iso 1⟩, TTL_SECONDS⟩)]
          [("t1", 0), ("t2", 1)] [])
        (fun v => decide (v = "m1")) 9
        [⟨"t1", "m1", .iso 0⟩, ⟨"t2", "m2", .iso 1⟩]).store.index "t2" =
      zscore (Store.mk [("t1", ⟨⟨"m1", .iso 0⟩, TTL_SECONDS⟩),
          ("t2", ⟨⟨"m2", .iso 1⟩, TTL_SECONDS⟩)]
        [("t1", 0), ("t2", 1)] []).index "t2") :=
  ⟨by decide, by decide,
    (sweep_retires_only_on_delete_success
      (Store.mk [("t1", ⟨⟨"m1", .iso 0⟩, TTL_SECONDS⟩),
          ("t2", ⟨⟨"m2", .iso 1⟩, TTL_SECONDS⟩)]
        [("t1", 0), ("t2", 1)] [])
      (fun v => decide (v = "m1")) 9
      [⟨"t1", "m1", .iso 0⟩, ⟨"t2", "m2", .iso 1⟩]
      ⟨"t2", "m2", .iso 1⟩
      (by decide) (by decide) (by decide) (by decide) (by decide)).2
      (by decide)⟩

/-- C8: the sweep trigger takes the staleness threshold in minutes, with the
`hours` parameter as a legacy fallback (`minutes` winning when both are
supplied — the response does not depend on `hours` then), and a batch size
limit; whenever the effective minutes value or the limit is `NaN` or
non-positive it rejects with the corresponding validation error, leaves the
store untouched and performs no remote delete call. -/
theorem sweep_trigger_validation (s : Store) (now : Int) (m h : JNum)
    (minutesQ hoursQ limitQ : Option JNum) (d : String → Bool) :
    (runSweep s now (some m) hoursQ limitQ d =
      runSweep s now (some m) none limitQ d) ∧
    (runSweep s now none (some h) limitQ d =
      runSweep s now (some (h.map (fun q => q * 60))) none limitQ d) ∧
    (jnumInvalid (effectiveMinutes minutesQ hoursQ) = true →
      runSweep s now minutesQ hoursQ limitQ d =
        ⟨SweepResponse.invalidMinutes, s, []⟩) ∧
    (jnumInvalid (effectiveMinutes minutesQ hoursQ) = false →
      jnumInvalid (limitQ.getD (some DEFAULT_LIMIT)) = true →
      runSweep s now minutesQ hoursQ limitQ d =
        ⟨SweepResponse.invalidLimit, s, []⟩) := by
  refine ⟨rfl, rfl, ?_, ?_⟩
  · intro hbad
    unfold runSweep
    cases heff : effectiveMinutes minutesQ hoursQ with
    | none => rfl
    | some mv =>
      rw [heff] at hbad
      unfold jnumInvalid at hbad
      dsimp only
      rw [if_pos (by exact of_decide_eq_true hbad)]
  · intro hok hbad
    unfold runSweep
    cases heff : effectiveMinutes minutesQ hoursQ with
    | none => rw [heff] at hok; exact absurd hok (by simp [jnumInvalid])
    | some mv =>
      rw [heff] at hok
      unfold jnumInvalid at hok
      dsimp only
      rw [if_neg (by simp only [decide_eq_false_iff_not] at hok; exact hok)]
      cases hlim : limitQ.getD (some DEFAULT_LIMIT) with
      | none => rfl
      | some lv =>
        rw [hlim] at hbad
        unfold jnumInvalid at hbad
        dsimp only
        rw [if_pos (by exact of_decide_eq_true hbad)]

theorem sweep_trigger_validation_witness :
    jnumInvalid (effectiveMinutes (some (some 0)) (some (some 7))) = true ∧
    ((runSweep (Store.mk [] [("t", 3)] []) 100 (some (some 5))
        (some (some 7)) none (fun _ => true) =
      runSweep (Store.mk [] [("t", 3)] []) 100 (some (some 5))
        none none (fun _ => true)) ∧
    (runSweep (Store.mk [] [("t", 3)] []) 100 none (some (some 7))
        none (fun _ => true) =
      runSweep (Store.mk [] [("t", 3)] []) 100
        (some ((some (7 : Int)).map (fun q => q * 60))) none none
        (fun _ => true)) ∧
    (jnumInvalid (effectiveMinutes (some (some 0)) (some (some 7))) = true →
      runSweep (Store.mk [] [("t", 3)] []) 100 (some (some 0))
          (some (some 7)) none (fun _ => true) =
        ⟨SweepResponse.invalidMinutes, Store.mk [] [("t", 3)] [], []⟩) ∧
    (jnumInvalid (effectiveMinutes (some (some 0)) (some (some 7))) = false →
      jnumInvalid ((none : Option JNum).getD (some DEFAULT_LIMIT)) = true →
      runSweep (Store.mk [] [("t", 3)] []) 100 (some (some 0))
          (some (some 7)) none (fun _ => true) =
        ⟨SweepResponse.invalidLimit, Store.mk [] [("t", 3)] [], []⟩)) :=
  ⟨by decide, sweep_trigger_validation (Store.mk [] [("t", 3)] []) 100
    (some 5) (some 7) (some (some 0)) (some (some 7)) none (fun _ => true)⟩

/-- C3: once a confirmed marker for a media id is durably in the store, (a) a
whole sweep invocation never calls remote-delete for that media id, and (b)
any scanned token whose pending record carries that media id is resolved by
the scan itself: pending record deleted, index entry removed, record excluded
from the scan results. -/
theorem confirmed_marker_protects (s : Store) (now : Int)
    (minutesQ hoursQ limitQ : Option JNum) (d : String → Bool)
    (mediaId : String) (mark : Marker)
    (hlive : aget s.confirmed mediaId = some mark) (hm : mediaId ≠ "")
    (hnd : (s.index.map Prod.fst).Nodup) :
    mediaId ∉ (runSweep s now minutesQ hoursQ limitQ d).deleteCalls ∧
    (∀ (cutoff : TimeStr) (limit : Nat) (tok : String) (e : PendingEntry),
      tok ∈ zrangeByScore s.index 0 ((dateParse cutoff).getD now) limit →
      aget s.pending tok = some e → e.value.video_id = mediaId →
      (∀ it ∈ (listExpiredPending s cutoff limit now).1,
        it.pending_token ≠ tok) ∧
      aget (listExpiredPending s cutoff limit now).2.pending tok = none ∧
      zscore (listExpiredPending s cutoff limit now).2.index tok = none) := by
  constructor
  · unfold runSweep
    cases effectiveMinutes minutesQ hoursQ with
    | none => simp
    | some mv =>
      dsimp only
      by_cases hmv : mv ≤ 0
      · rw [if_pos hmv]; simp
      · rw [if_neg hmv]
        cases limitQ.getD (some DEFAULT_LIMIT) with
        | none => simp
        | some lv =>
          dsimp only
          by_cases hlv : lv ≤ 0
          · rw [if_pos hlv]; simp
          · rw [if_neg hlv]
            dsimp only
            intro hmem
            have hconf : (listExpiredPending s (.iso (now - mv * 60 * 1000))
                (jsCount lv) now).2.confirmed = s.confirmed :=
              scanLoop_preserves_confirmed _ s
            have hdc := sweep_deleteCalls_unconfirmed d now
              (listExpiredPending s (.iso (now - mv * 60 * 1000))
                (jsCount lv) now).1
              ⟨(listExpiredPending s (.iso (now - mv * 60 * 1000))
                (jsCount lv) now).2, [], 0, []⟩
              ((listExpiredPending s (.iso (now - mv * 60 * 1000))
                (jsCount lv) now).2.confirmed)
              rfl (by intro v hv; simp at hv) mediaId hmem
            rw [hconf, hlive] at hdc
            cases hdc
  · intro cutoff limit tok e hreach he hv
    have hnodup := nodup_zrangeByScore s.index 0 ((dateParse cutoff).getD now)
      limit hnd
    have hspec := scanLoop_spec _ s tok hnodup hreach
    have hvne : e.value.video_id ≠ "" := by rw [hv]; exact hm
    have hsome : (aget s.confirmed e.value.video_id).isSome := by
      rw [hv, hlive]; rfl
    exact (hspec.2 e he hvne).1 hsome

theorem confirmed_marker_protects_witness :
    aget (Store.mk [("t", ⟨⟨"m1", .iso 5⟩, TTL_SECONDS⟩)] [("t", 5)]
        [("m1", ⟨.iso 9, CONFIRMED_TTL_SECONDS⟩)]).confirmed "m1" =
      some ⟨.iso 9, CONFIRMED_TTL_SECONDS⟩ ∧
    ((Store.mk [("t", ⟨⟨"m1", .iso 5⟩, TTL_SECONDS⟩)] [("t", 5)]
        [("m1", ⟨.iso 9, CONFIRMED_TTL_SECONDS⟩)]).index.map Prod.fst).Nodup ∧
    ("m1" ∉ (runSweep
        (Store.mk [("t", ⟨⟨"m1", .iso 5⟩, TTL_SECONDS⟩)] [("t", 5)]
          [("m1", ⟨.iso 9, CONFIRMED_TTL_SECONDS⟩)])
        10000000 (some (some 1)) none none (fun _ => true)).deleteCalls ∧
    (∀ (cutoff : TimeStr) (limit : Nat) (tok : String) (e : PendingEntry),
      tok ∈ zrangeByScore (Store.mk [("t", ⟨⟨"m1", .iso 5⟩, TTL_SECONDS⟩)]
          [("t", 5)] [("m1", ⟨.iso 9, CONFIRMED_TTL_SECONDS⟩)]).index 0
          ((dateParse cutoff).getD 10000000) limit →
      aget (Store.mk [("t", ⟨⟨"m1", .iso 5⟩, TTL_SECONDS⟩)] [("t", 5)]
          [("m1", ⟨.iso 9, CONFIRMED_TTL_SECONDS⟩)]).pending tok = some e →
      e.value.video_id = "m1" →
      (∀ it ∈ (listExpiredPending
          (Store.mk [("t", ⟨⟨"m1", .iso 5⟩, TTL_SECONDS⟩)] [("t", 5)]
            [("m1", ⟨.iso 9, CONFIRMED_TTL_SECONDS⟩)])
          cutoff limit 10000000).1, it.pending_token ≠ tok) ∧
      aget (listExpiredPending
          (Store.mk [("t", ⟨⟨"m1", .iso 5⟩, TTL_SECONDS⟩)] [("t", 5)]
            [("m1", ⟨.iso 9, CONFIRMED_TTL_SECONDS⟩)])
          cutoff limit 10000000).2.pending tok = none ∧
      zscore (listExpiredPending
          (Store.mk [("t", ⟨⟨"m1", .iso 5⟩, TTL_SECONDS⟩)] [("t", 5)]
            [("m1", ⟨.iso 9, CONFIRMED_TTL_SECONDS⟩)])
          cutoff limit 10000000).2.index tok = none)) :=
  ⟨by decide, by decide,
    confirmed_marker_protects
      (Store.mk [("t", ⟨⟨"m1", .iso 5⟩, TTL_SECONDS⟩)] [("t", 5)]
        [("m1", ⟨.iso 9, CONFIRMED_TTL_SECONDS⟩)])
      10000000 (some (some 1)) none none (fun _ => true) "m1"
      ⟨.iso 9, CONFIRMED_TTL_SECONDS⟩ (by decide) (by decide) (by decide)⟩

theorem length_filter_zadd_le (z : List (String × Int)) (sc : Int)
    (m : String) (p : String × Int → Bool) :
    ((zadd z sc m).filter p).length ≤ (z.filter p).length + 1 := by
  have hperm := zinsert_perm sc m (adel z m)
  have h1 : ((zadd z sc m).filter p).length =
      (((m, sc) :: adel z m).filter p).length := by
    rw [zadd, zrem]
    exact (hperm.filter p).length_eq
  have h2 : ((adel z m).filter p).length ≤ (z.filter p).length :=
    ((List.filter_sublist z).filter p).length_le
  rw [h1, List.filter_cons]
  by_cases hp : p (m, sc)
  · rw [if_pos hp]
    simp only [List.length_cons]
    omega
  · rw [if_neg hp]
    omega

/-- C5: a record created by `storePendingUpload(token, m, t0)` is returned by
`listExpiredPending(cutoff, limit)` exactly when `t0 ≤ cutoff` and the record
was neither confirmed nor retired in between (with fewer than `limit` older
index entries, a non-empty media id, a parseable non-negative `t0`, and no
pre-existing confirmed marker for `m`). -/
theorem create_scan_roundtrip (s : Store) (tok vid : String)
    (t0 c now : Int) (limit : Nat) (op : MidOp)
    (hnd : (s.index.map Prod.fst).Nodup) (hvid : vid ≠ "") (ht0 : 0 ≤ t0)
    (hmk : aget s.confirmed vid = none)
    (hcount : ((s.index.filter (fun e => 0 ≤ e.2 ∧ e.2 ≤ c)).length) < limit) :
    (⟨tok, vid, .iso t0⟩ : ScanItem) ∈
        (listExpiredPending
          (applyMid (storePendingUpload s tok vid (.iso t0)) tok vid op)
          (.iso c) limit now).1
      ↔ (t0 ≤ c ∧ op = MidOp.keep) := by
  have hs1 : storePendingUpload s tok vid (.iso t0) =
      { pending := aset s.pending tok ⟨⟨vid, .iso t0⟩, TTL_SECONDS⟩,
        index := zadd s.index t0 tok,
        confirmed := s.confirmed } := rfl
  set s1 : Store :=
    { pending := aset s.pending tok ⟨⟨vid, .iso t0⟩, TTL_SECONDS⟩,
      index := zadd s.index t0 tok,
      confirmed := s.confirmed } with hs1def
  rw [hs1]
  have hp1 : aget s1.pending tok = some ⟨⟨vid, .iso t0⟩, TTL_SECONDS⟩ :=
    aget_aset_self s.pending tok _
  have hi1 : zscore s1.index tok = some t0 := zscore_zadd_self s.index t0 tok
  have hnd1 : (s1.index.map Prod.fst).Nodup := keys_nodup_zadd s.index t0 tok hnd
  have excl : ∀ s' : Store, zscore s'.index tok = none →
      (⟨tok, vid, .iso t0⟩ : ScanItem) ∉
        (listExpiredPending s' (.iso c) limit now).1 := by
    intro s' hz hmem
    exact not_mem_zrangeByScore_of_zscore_none s'.index 0
      ((dateParse (.iso c)).getD now) limit tok hz
      (scanLoop_result_tokens _ s' _ hmem)
  cases op with
  | keep =>
    simp only [applyMid]
    constructor
    · intro hmem
      refine ⟨?_, trivial⟩
      have htok := scanLoop_result_tokens _ s1 _ hmem
      obtain ⟨sc, hsc, -, hsc2⟩ :=
        mem_zrangeByScore s1.index 0 ((dateParse (.iso c)).getD now) limit
          tok htok
      have := zscore_of_mem s1.index tok sc hnd1 hsc
      rw [hi1] at this
      injection this with hh
      subst hh
      exact hsc2
    · rintro ⟨ht0c, -⟩
      have hlen : (((zadd s.index t0 tok).filter
          (fun e => 0 ≤ e.2 ∧ e.2 ≤ c)).length) ≤ limit := by
        have := length_filter_zadd_le s.index t0 tok
          (fun e => decide (0 ≤ e.2 ∧ e.2 ≤ c))
        omega
      have hreach : tok ∈ zrangeByScore s1.index 0
          ((dateParse (.iso c)).getD now) limit :=
        mem_zrangeByScore_of_le s1.index 0 c limit tok t0 hlen
          ((mem_zadd_iff s.index t0 tok (tok, t0)).mpr (Or.inl rfl)) ht0 ht0c
      have hnodup := nodup_zrangeByScore s1.index 0
        ((dateParse (.iso c)).getD now) limit hnd1
      have hspec := scanLoop_spec _ s1 tok hnodup hreach
      have hlive := (hspec.2 ⟨⟨vid, .iso t0⟩, TTL_SECONDS⟩ hp1 hvid).2 hmk
      exact hlive.1
  | confirmIt ca =>
    simp only [applyMid]
    have hidx : (confirmPendingUpload s1 tok vid ca).2.index =
        zrem s1.index tok := by
      unfold confirmPendingUpload
      rw [hp1]
      dsimp only
      rw [if_neg (by simp)]
    constructor
    · intro hmem
      exact absurd hmem (excl _ (by rw [hidx]; exact aget_adel_self _ _))
    · rintro ⟨-, hop⟩
      cases hop
  | retireIt da =>
    simp only [applyMid]
    constructor
    · intro hmem
      refine absurd hmem (excl _ ?_)
      show zscore (zrem s1.index tok) tok = none
      exact aget_adel_self _ _
    · rintro ⟨-, hop⟩
      cases hop

theorem create_scan_roundtrip_witness :
    (((Store.mk [] [] []).index.map Prod.fst).Nodup ∧ ("m" : String) ≠ "" ∧
      (0 : Int) ≤ 5 ∧ aget (Store.mk [] [] []).confirmed "m" = none ∧
      (((Store.mk ([] : List (String × PendingEntry)) [] []).index.filter
        (fun e => 0 ≤ e.2 ∧ e.2 ≤ 10)).length) < 25) ∧
    ((⟨"t", "m", .iso 5⟩ : ScanItem) ∈
        (listExpiredPending
          (applyMid (storePendingUpload (Store.mk [] [] []) "t" "m" (.iso 5))
            "t" "m" MidOp.keep)
          (.iso 10) 25 99).1
      ↔ ((5 : Int) ≤ 10 ∧ MidOp.keep = MidOp.keep)) :=
  ⟨⟨by decide, by decide, by decide, by decide, by decide⟩,
    create_scan_roundtrip (Store.mk [] [] []) "t" "m" 5 10 99 25 MidOp.keep
      (by decide) (by decide) (by decide) (by decide) (by decide)⟩
